import Mathlib

/-!
# alfz: sorting command-line arguments by the alphabet index of their first character

A shallow embedding of `src/main.c`.

* A C `char` is modelled by the value of its byte, a natural number; the two
  alphabet tables hold the ASCII codes of `a`..`z` and `A`..`Z`.
* A C string is the list of its bytes before the terminating NUL, so that
  `str[0]` of the empty string is the NUL byte `0`.  The strings of an argument
  vector hold bytes `1..255`; no theorem below depends on that bound.
* The global iterator `i` is passed explicitly: every function that assigns
  it returns its new value next to its result.
* `qsort` belongs to the C library, not to the program.  It is a parameter of
  `main`, constrained by the contract the C standard gives it (`QsortContract`);
  `isort` is one executable sort that meets the contract.
* `malloc` and `strdup` may fail; an `Alloc` oracle says which calls succeed.
-/

namespace Alfz

/-! ## Data model -/

/-- A C string: its bytes up to, and without, the terminating NUL. -/
abbrev CStr := List Nat

/-- The bytes of a string literal. -/
def bytes (s : String) : CStr := s.data.map Char.toNat

/-- The expression `str[0]`: the first byte, the terminating NUL for the empty string. -/
def first_char (s : CStr) : Nat := s.headD 0

/-- The macro `EXECUTION_ERROR_ABORT`. -/
def EXECUTION_ERROR_ABORT : Int := 1

/-- The macro `ALF_S`, the alphabet size. -/
def ALF_S : Nat := 26

/-- The table `alfm_arr`: the lowercase alphabet `'a'`..`'z'`. -/
def alfm_arr : List Nat :=
  [97, 98, 99, 100, 101, 102, 103, 104, 105, 106, 107, 108, 109,
   110, 111, 112, 113, 114, 115, 116, 117, 118, 119, 120, 121, 122]

/-- The table `alfc_arr`: the uppercase alphabet `'A'`..`'Z'`. -/
def alfc_arr : List Nat :=
  [65, 66, 67, 68, 69, 70, 71, 72, 73, 74, 75, 76, 77,
   78, 79, 80, 81, 82, 83, 84, 85, 86, 87, 88, 89, 90]

/-! ## `alf_index` -/

/-- The loop of `alf_index`, entered with the global iterator equal to `i` and
`n = ALF_S - i` iterations left.  It returns the function's result together with
the value the global iterator is left with. -/
def alf_index_loop (c : Nat) : Nat → Nat → Int × Nat
  | 0, i => (-1, i)
  | n + 1, i =>
    if c = alfm_arr.getD i 0 ∨ c = alfc_arr.getD i 0 then ((i : Int), i)
    else alf_index_loop c n (i + 1)

/-- The function `alf_index` with its effect on the global iterator: the loop starts by
assigning `i = 0`, whatever the iterator held before. -/
def alf_index_st (c : Nat) (_i : Nat) : Int × Nat :=
  alf_index_loop c ALF_S 0

/-- The value returned by `alf_index`. -/
def alf_index (c : Nat) : Int := (alf_index_st c 0).1

/-! ## `fchar_compare` -/

/-- The function `fchar_compare` on the two strings its arguments point to, with its
effect on the global iterator (through the two calls of `alf_index`). -/
def fchar_compare_st (str1 str2 : CStr) (i : Nat) : Int × Nat :=
  let r1 := alf_index_st (first_char str1) i
  let r2 := alf_index_st (first_char str2) r1.2
  let i1 := r1.1
  let i2 := r2.1
  if i1 = -1 ∧ i2 = -1 then (0, r2.2)
  else if i1 = -1 then (1, r2.2)
  else if i2 = -1 then (-1, r2.2)
  else (i1 - i2, r2.2)

/-- The value returned by `fchar_compare`. -/
def fchar_compare (str1 str2 : CStr) : Int := (fchar_compare_st str1 str2 0).1

/-- The sort key of a string: `alf_index` of its first character. -/
def sort_key (s : CStr) : Int := alf_index (first_char s)

/-- A byte is an ASCII letter. -/
def is_letter (c : Nat) : Prop := (97 ≤ c ∧ c ≤ 122) ∨ (65 ≤ c ∧ c ≤ 90)

instance (c : Nat) : Decidable (is_letter c) := by unfold is_letter; infer_instance


/-! ## The C library: output, allocation, `qsort` -/

/-- The library call `puts(s)`: the bytes of `s` and a newline. -/
def puts (s : CStr) : List Nat := s ++ [10]

/-- The conversion `%d` of a non-negative `int`: its decimal digits. -/
def decimal (n : Nat) : List Nat := (Nat.toDigits 10 n).map Char.toNat

/-- The bytes written by `printf("[%d][%c]: %s \n", i, s[0], s)`. -/
def printf_line (i : Nat) (s : CStr) : List Nat :=
  bytes "[" ++ decimal i ++ bytes "][" ++ [first_char s] ++ bytes "]: " ++ s ++ bytes " \n"

/-- Which allocations of a run succeed: the `malloc` of the array, and the `strdup`
performed when the iterator is `k`. -/
structure Alloc where
  malloc_ok : Bool
  strdup_ok : Nat → Bool

/-- The oracle under which every allocation succeeds. -/
def Alloc.all_ok : Alloc := ⟨true, fun _ => true⟩

/-- A comparison function as `qsort` receives it: it returns an `int` and may assign the
global iterator. -/
abbrev Compar := CStr → CStr → Nat → Int × Nat

/-- The library function `qsort(base, nmemb, size, compar)` on an array of strings: from the
array and the global iterator before the call to the array and the iterator after it. -/
abbrev Qsort := List CStr → Compar → Nat → List CStr × Nat

/-- A comparison function is consistent, as the C standard requires of the argument of
`qsort`: exchanging the arguments negates the sign, and "not greater" is transitive. -/
def Consistent (cmp : CStr → CStr → Int) : Prop :=
  (∀ a b, Int.sign (cmp a b) = - Int.sign (cmp b a)) ∧
  (∀ a b c, cmp a b ≤ 0 → cmp b c ≤ 0 → cmp a c ≤ 0)

/-- The contract of `qsort` in the C standard: when the comparison function returns a value
`cmp a b` that does not depend on the state it is called in and is consistent, the array
after the call holds the same elements, in ascending order according to `cmp`.  The order
of elements that compare equal is left open. -/
def QsortContract (qsort : Qsort) : Prop :=
  ∀ (compar : Compar) (cmp : CStr → CStr → Int),
    (∀ a b i, (compar a b i).1 = cmp a b) → Consistent cmp →
    ∀ (base : List CStr) (i : Nat),
      (qsort base compar i).1.Perm base ∧
      (qsort base compar i).1.Pairwise (fun a b => cmp a b ≤ 0)

/-- Insertion of `x` into a sorted array, calling the comparison function in state `i`. -/
def insert_st (compar : Compar) (x : CStr) : List CStr → Nat → List CStr × Nat
  | [], i => ([x], i)
  | y :: ys, i =>
    let r := compar x y i
    if r.1 ≤ 0 then (x :: y :: ys, r.2)
    else
      let t := insert_st compar x ys r.2
      (y :: t.1, t.2)

/-- Insertion sort, one implementation of `qsort`; the global iterator is threaded through
every call of the comparison function. -/
def isort : Qsort
  | [], _, i => ([], i)
  | x :: xs, compar, i =>
    let t := isort xs compar i
    insert_st compar x t.1 t.2

/-! ## `main` -/

/-- The outcome of a run of `main`: exit status, bytes written to standard output, and the
final value of the global iterator. -/
structure Run where
  status : Int
  stdout : List Nat
  i : Nat

/-- The duplication loop of `main`, entered with iterator `i`, `n = num_args - i` iterations
left and `arg_arr` holding the copies made so far.  The result is `none` when a `strdup`
fails, with the iterator at the failing position. -/
def dup_loop (alloc : Alloc) (argv : List CStr) : Nat → Nat → List CStr → Option (List CStr) × Nat
  | 0, i, arg_arr => (some arg_arr, i)
  | n + 1, i, arg_arr =>
    if alloc.strdup_ok i then
      dup_loop alloc argv n (i + 1) (arg_arr ++ [argv.getD (i + 1) []])
    else (none, i)

/-- The print loop of `main`, entered with iterator `i` and `n = num_args - i` iterations
left: the bytes written and the final iterator. -/
def print_loop (arg_arr : List CStr) : Nat → Nat → List Nat × Nat
  | 0, i => ([], i)
  | n + 1, i =>
    let r := print_loop arg_arr n (i + 1)
    (printf_line i (arg_arr.getD i []) ++ r.1, r.2)

/-- The loop of `main` that frees the copies: only the iterator is observable. -/
def free_loop : Nat → Nat → Nat
  | 0, i => i
  | n + 1, i => free_loop n (i + 1)

/-- The function `main`, given the library's `qsort`, the allocation oracle and the whole
argument vector `argv` (program name first), with `argc = argv.length`.  The global
iterator starts at `0`, as a C global without an initialiser does. -/
def main (qsort : Qsort) (alloc : Alloc) (argv : List CStr) : Run :=
  let argc := argv.length
  let num_args := argc - 1
  if argc ≤ 1 then
    ⟨EXECUTION_ERROR_ABORT, puts (bytes "ERROR: no arguments passed"), 0⟩
  else if alloc.malloc_ok = false then
    ⟨EXECUTION_ERROR_ABORT, puts (bytes "ERROR: memory allocation failure"), 0⟩
  else
    match dup_loop alloc argv num_args 0 [] with
    | (none, i) =>
      ⟨EXECUTION_ERROR_ABORT, puts (bytes "ERROR: null pointer exception (NPE)"), i⟩
    | (some arg_arr, i) =>
      let sorted := qsort arg_arr fchar_compare_st i
      let printed := print_loop sorted.1 num_args 0
      ⟨0, printed.1, free_loop num_args 0⟩

/-- The array `arg_arr` as `main` holds it between its `qsort` call and its print loop: the
strings the print loop goes on to write, in the order it writes them.  It is `none` when
`main` returns before sorting. -/
def sorted_args (qsort : Qsort) (alloc : Alloc) (argv : List CStr) : Option (List CStr) :=
  if argv.length ≤ 1 then none
  else if alloc.malloc_ok = false then none
  else
    match dup_loop alloc argv (argv.length - 1) 0 [] with
    | (none, _) => none
    | (some arg_arr, i) => some (qsort arg_arr fchar_compare_st i).1

/-- Every allocation of a run on `num_args` arguments succeeds. -/
def Alloc.succeeds (alloc : Alloc) (num_args : Nat) : Prop :=
  alloc.malloc_ok = true ∧ ∀ k, k < num_args → alloc.strdup_ok k = true

/-- The other case of an ASCII letter; any other byte is left as it is. -/
def swap_case (c : Nat) : Nat :=
  if 97 ≤ c ∧ c ≤ 122 then c - 32 else if 65 ≤ c ∧ c ≤ 90 then c + 32 else c

/-- The order of the sort keys that `fchar_compare` induces: valid keys ascend and the
invalid key `-1` comes last. -/
def key_le (k1 k2 : Int) : Prop := k2 = -1 ∨ (k1 ≠ -1 ∧ k1 ≤ k2)

/-- The C library's `tolower` in the "C" locale, on the value of a byte. -/
def tolower (c : Nat) : Nat := if 65 ≤ c ∧ c ≤ 90 then c + 32 else c

/-- The direct arithmetic mapping of the specification's implementation note, written
from its words and not from the code: case-fold the character to lowercase, subtract
`'a'`, and return the difference if it lies in `0..25`, the invalid marker `-1` otherwise. -/
def alf_index_direct (c : Nat) : Int :=
  let d : Int := (tolower c : Int) - 97
  if 0 ≤ d ∧ d ≤ 25 then d else -1

/-- The least value of a 32-bit `int`. -/
def INT_MIN : Int := -2147483648

/-- The greatest value of a 32-bit `int`. -/
def INT_MAX : Int := 2147483647

/-- The subtraction of two `int`s as the machine performs it: the exact difference when an
`int` can hold it, no defined result (`none`) when the subtraction overflows. -/
def int_sub (x y : Int) : Option Int :=
  if INT_MIN ≤ x - y ∧ x - y ≤ INT_MAX then some (x - y) else none

/-- The function `fchar_compare` with its final `i1 - i2` computed in machine arithmetic:
`none` would be a run in which the subtraction overflows. -/
def fchar_compare_checked (str1 str2 : CStr) : Option Int :=
  let i1 := alf_index (first_char str1)
  let i2 := alf_index (first_char str2)
  if i1 = -1 ∧ i2 = -1 then some 0
  else if i1 = -1 then some 1
  else if i2 = -1 then some (-1)
  else int_sub i1 i2

/-! ## Lemmas on `alf_index` and `fchar_compare` -/

theorem alfm_arr_le (i : Nat) : alfm_arr.getD i 0 ≤ 122 := by
  by_cases h : i < 26
  · revert i
    decide
  · rw [List.getD_eq_default]
    · omega
    · simp [alfm_arr]
      omega

theorem alfc_arr_le (i : Nat) : alfc_arr.getD i 0 ≤ 122 := by
  by_cases h : i < 26
  · revert i
    decide
  · rw [List.getD_eq_default]
    · omega
    · simp [alfc_arr]
      omega

theorem alf_index_loop_miss (c : Nat) (hc : 123 ≤ c) :
    ∀ n i, alf_index_loop c n i = (-1, i + n) := by
  intro n
  induction n with
  | zero => intro i; rfl
  | succ n ih =>
    intro i
    have h1 := alfm_arr_le i
    have h2 := alfc_arr_le i
    have h3 : ¬ (c = alfm_arr.getD i 0 ∨ c = alfc_arr.getD i 0) := by omega
    rw [alf_index_loop, if_neg h3, ih]
    congr 1
    omega

/-- The result of `alf_index` and the iterator it leaves, in closed form. -/
theorem alf_index_st_closed (c g : Nat) :
    alf_index_st c g =
      if 97 ≤ c ∧ c ≤ 122 then ((c : Int) - 97, c - 97)
      else if 65 ≤ c ∧ c ≤ 90 then ((c : Int) - 65, c - 65)
      else (-1, 26) := by
  by_cases h : c < 123
  · unfold alf_index_st
    revert c
    decide
  · have h1 : ¬ (97 ≤ c ∧ c ≤ 122) := by omega
    have h2 : ¬ (65 ≤ c ∧ c ≤ 90) := by omega
    rw [if_neg h1, if_neg h2, alf_index_st, alf_index_loop_miss c (by omega)]
    rfl

theorem alf_index_closed (c : Nat) :
    alf_index c =
      if 97 ≤ c ∧ c ≤ 122 then (c : Int) - 97
      else if 65 ≤ c ∧ c ≤ 90 then (c : Int) - 65
      else -1 := by
  unfold alf_index
  rw [alf_index_st_closed]
  split_ifs <;> rfl

theorem alf_index_range (c : Nat) :
    alf_index c = -1 ∨ (0 ≤ alf_index c ∧ alf_index c ≤ 25) := by
  rw [alf_index_closed]
  split_ifs <;> omega

theorem alf_index_invalid_iff (c : Nat) : alf_index c = -1 ↔ ¬ is_letter c := by
  rw [alf_index_closed]
  unfold is_letter
  split_ifs <;> omega

theorem sort_key_range (s : CStr) :
    sort_key s = -1 ∨ (0 ≤ sort_key s ∧ sort_key s ≤ 25) :=
  alf_index_range _

/-- The value of `fchar_compare` in terms of the two sort keys. -/
theorem fchar_compare_eq (a b : CStr) :
    fchar_compare a b =
      if sort_key a = -1 ∧ sort_key b = -1 then 0
      else if sort_key a = -1 then 1
      else if sort_key b = -1 then -1
      else sort_key a - sort_key b := by
  simp only [fchar_compare, fchar_compare_st, sort_key, alf_index, alf_index_st]
  split_ifs <;> rfl

/-- The value `fchar_compare` returns does not depend on the iterator it is called with. -/
theorem fchar_compare_st_fst (a b : CStr) (i : Nat) :
    (fchar_compare_st a b i).1 = fchar_compare a b := rfl

theorem fchar_compare_le_iff (a b : CStr) :
    fchar_compare a b ≤ 0 ↔
      (sort_key b = -1 ∨ (sort_key a ≠ -1 ∧ sort_key a ≤ sort_key b)) := by
  rw [fchar_compare_eq]
  have ha := sort_key_range a
  have hb := sort_key_range b
  split_ifs <;> omega

theorem fchar_compare_consistent : Consistent fchar_compare := by
  constructor
  · intro a b
    rw [fchar_compare_eq a b, fchar_compare_eq b a]
    have ha := sort_key_range a
    have hb := sort_key_range b
    split_ifs <;> first
      | rfl
      | omega
      | (rw [← Int.sign_neg]; congr 1; omega)
  · intro a b c hab hbc
    rw [fchar_compare_le_iff] at *
    have ha := sort_key_range a
    have hb := sort_key_range b
    have hc := sort_key_range c
    omega

/-! ## Insertion sort meets the contract of `qsort` -/

theorem insert_st_perm (compar : Compar) (x : CStr) :
    ∀ (ys : List CStr) (i : Nat), (insert_st compar x ys i).1.Perm (x :: ys) := by
  intro ys
  induction ys with
  | nil => intro i; exact List.Perm.refl _
  | cons y ys ih =>
    intro i
    unfold insert_st
    by_cases h : (compar x y i).1 ≤ 0
    · simp only [h, if_true]
      exact List.Perm.refl _
    · simp only [h, if_false]
      exact ((ih (compar x y i).2).cons y).trans (List.Perm.swap x y ys)

theorem insert_st_pairwise (compar : Compar) (cmp : CStr → CStr → Int)
    (hval : ∀ a b i, (compar a b i).1 = cmp a b) (hcons : Consistent cmp) (x : CStr) :
    ∀ (ys : List CStr) (i : Nat), ys.Pairwise (fun a b => cmp a b ≤ 0) →
      (insert_st compar x ys i).1.Pairwise (fun a b => cmp a b ≤ 0) := by
  intro ys
  induction ys with
  | nil => intro i _; simp [insert_st]
  | cons y ys ih =>
    intro i hs
    have hy := List.pairwise_cons.mp hs
    unfold insert_st
    by_cases h : (compar x y i).1 ≤ 0
    · simp only [h, if_true]
      rw [hval] at h
      refine List.pairwise_cons.mpr ⟨?_, hs⟩
      intro z hz
      rcases List.mem_cons.mp hz with rfl | hz
      · exact h
      · exact hcons.2 x y z h (hy.1 z hz)
    · simp only [h, if_false]
      rw [hval] at h
      have hyx : cmp y x ≤ 0 := by
        have hs := hcons.1 x y
        have hpos : Int.sign (cmp x y) = 1 := Int.sign_eq_one_of_pos (by omega)
        rw [hpos] at hs
        have hneg : Int.sign (cmp y x) = -1 := by omega
        exact le_of_lt (Int.sign_eq_neg_one_iff_neg.mp hneg)
      refine List.pairwise_cons.mpr ⟨?_, ih _ hy.2⟩
      intro z hz
      rcases List.mem_cons.mp ((insert_st_perm compar x ys _).subset hz) with rfl | hz
      · exact hyx
      · exact hy.1 z hz

theorem isort_perm (compar : Compar) :
    ∀ (xs : List CStr) (i : Nat), (isort xs compar i).1.Perm xs := by
  intro xs
  induction xs with
  | nil => intro i; exact List.Perm.refl _
  | cons x xs ih =>
    intro i
    unfold isort
    exact (insert_st_perm compar x _ _).trans ((ih i).cons x)

theorem isort_pairwise (compar : Compar) (cmp : CStr → CStr → Int)
    (hval : ∀ a b i, (compar a b i).1 = cmp a b) (hcons : Consistent cmp) :
    ∀ (xs : List CStr) (i : Nat), (isort xs compar i).1.Pairwise (fun a b => cmp a b ≤ 0) := by
  intro xs
  induction xs with
  | nil => intro i; simp [isort]
  | cons x xs ih =>
    intro i
    unfold isort
    exact insert_st_pairwise compar cmp hval hcons x _ _ (ih i)

/-- Insertion sort is a `qsort`. -/
theorem isort_contract : QsortContract isort :=
  fun compar cmp hval hcons base i =>
    ⟨isort_perm compar base i, isort_pairwise compar cmp hval hcons base i⟩

/-- What the contract gives at the call site of `main`. -/
theorem qsort_fchar (qsort : Qsort) (hq : QsortContract qsort) (base : List CStr) (i : Nat) :
    (qsort base fchar_compare_st i).1.Perm base ∧
    (qsort base fchar_compare_st i).1.Pairwise (fun a b => fchar_compare a b ≤ 0) :=
  hq fchar_compare_st fchar_compare fchar_compare_st_fst fchar_compare_consistent base i

/-! ## The loops of `main` -/

theorem dup_loop_ok (alloc : Alloc) (prog : CStr) (args : List CStr) :
    ∀ (n i : Nat) (acc : List CStr), i + n ≤ args.length →
      (∀ k, k < i + n → alloc.strdup_ok k = true) →
      dup_loop alloc (prog :: args) n i acc = (some (acc ++ (args.drop i).take n), i + n) := by
  intro n
  induction n with
  | zero => intro i acc _ _; simp [dup_loop]
  | succ n ih =>
    intro i acc hlen hok
    have hi : i < args.length := by omega
    rw [dup_loop, if_pos (hok i (by omega)), ih (i + 1) _ (by omega) (fun k hk => hok k (by omega))]
    have hd : args.drop i = args[i] :: args.drop (i + 1) := List.drop_eq_getElem_cons hi
    have hg : (prog :: args).getD (i + 1) [] = args[i] := by
      simp [List.getD_eq_getElem?_getD, List.getElem?_eq_getElem hi]
    rw [hd, hg, List.take_succ_cons, List.append_assoc]
    congr 1
    omega

theorem free_loop_eq : ∀ (n i : Nat), free_loop n i = i + n := by
  intro n
  induction n with
  | zero => intro i; rfl
  | succ n ih => intro i; rw [free_loop, ih]; omega

theorem print_loop_snd (arg_arr : List CStr) :
    ∀ (n i : Nat), (print_loop arg_arr n i).2 = i + n := by
  intro n
  induction n with
  | zero => intro i; rfl
  | succ n ih => intro i; rw [print_loop]; simp only [ih]; omega

theorem print_loop_fst (arg_arr : List CStr) :
    ∀ (n i : Nat), (print_loop arg_arr n i).1 =
      ((List.range n).map (fun k => printf_line (i + k) (arg_arr.getD (i + k) []))).flatten := by
  intro n
  induction n with
  | zero => intro i; rfl
  | succ n ih =>
    intro i
    rw [print_loop, List.range_succ_eq_map]
    simp only [ih, List.map_cons, List.map_map, List.flatten_cons, Nat.add_zero]
    congr 2
    apply List.map_congr_left
    intro k _
    simp only [Function.comp, Nat.succ_eq_add_one]
    rw [show i + 1 + k = i + (k + 1) by omega]

/-- A successful run: the array that is sorted is the argument list, and the run prints the
sorted array from position `0` and returns `0`. -/
theorem main_ok (qsort : Qsort) (alloc : Alloc) (prog : CStr) (args : List CStr)
    (hne : args ≠ []) (halloc : alloc.succeeds args.length) :
    sorted_args qsort alloc (prog :: args)
      = some (qsort args fchar_compare_st args.length).1 ∧
    main qsort alloc (prog :: args)
      = ⟨0, (print_loop (qsort args fchar_compare_st args.length).1 args.length 0).1,
          args.length⟩ := by
  have hlen : ¬ (prog :: args).length ≤ 1 := by
    cases args with
    | nil => exact absurd rfl hne
    | cons a l => simp
  have hm : ¬ alloc.malloc_ok = false := by simp [halloc.1]
  have hd := dup_loop_ok alloc prog args args.length 0 [] (by omega)
    (fun k hk => halloc.2 k (by omega))
  simp only [List.drop_zero, List.take_length, List.nil_append, Nat.zero_add] at hd
  constructor
  · unfold sorted_args
    rw [if_neg hlen, if_neg hm]
    simp only [List.length_cons, Nat.add_sub_cancel, hd]
  · unfold main
    simp only [if_neg hlen, if_neg hm]
    simp only [List.length_cons, Nat.add_sub_cancel, hd, free_loop_eq, Nat.zero_add]

theorem Alloc.all_ok_succeeds (n : Nat) : Alloc.all_ok.succeeds n :=
  ⟨rfl, fun _ _ => rfl⟩

/-! ## The sorted array -/

/-- What a successful run sorts and prints: a permutation of the arguments, ascending for
`fchar_compare`, written line by line. -/
theorem run_ok (qsort : Qsort) (hq : QsortContract qsort) (alloc : Alloc) (prog : CStr)
    (args : List CStr) (hne : args ≠ []) (halloc : alloc.succeeds args.length) :
    ∃ out, sorted_args qsort alloc (prog :: args) = some out ∧
      out.Perm args ∧ out.Pairwise (fun a b => fchar_compare a b ≤ 0) ∧
      main qsort alloc (prog :: args) =
        ⟨0, ((List.range out.length).map (fun k => printf_line k (out.getD k []))).flatten,
          args.length⟩ := by
  obtain ⟨h1, h2⟩ := main_ok qsort alloc prog args hne halloc
  obtain ⟨hp, hs⟩ := qsort_fchar qsort hq args args.length
  refine ⟨_, h1, hp, hs, ?_⟩
  rw [h2, print_loop_fst, hp.length_eq]
  simp

/-- In an array ascending for `fchar_compare`, the strings with a valid key come first. -/
theorem valid_then_invalid (out : List CStr)
    (hs : out.Pairwise (fun a b => fchar_compare a b ≤ 0)) :
    out = out.filter (fun s => decide (sort_key s ≠ -1)) ++
      out.filter (fun s => decide (sort_key s = -1)) := by
  induction out with
  | nil => rfl
  | cons x l ih =>
    obtain ⟨hx, hl⟩ := List.pairwise_cons.mp hs
    by_cases hk : sort_key x = -1
    · have hall : ∀ z ∈ l, sort_key z = -1 := by
        intro z hz
        have := (fchar_compare_le_iff x z).mp (hx z hz)
        omega
      have h1 : l.filter (fun s => decide (sort_key s ≠ -1)) = [] := by
        rw [List.filter_eq_nil_iff]
        intro z hz
        simp [hall z hz]
      have h2 : l.filter (fun s => decide (sort_key s = -1)) = l := by
        rw [List.filter_eq_self]
        intro z hz
        simp [hall z hz]
      simpa [List.filter_cons, hk, h1, h2] using hall
    · have := ih hl
      simp only [List.filter_cons, hk, ne_eq, not_false_eq_true, decide_True, decide_False,
        List.cons_append, if_true]
      simp only [ne_eq] at this
      simp only [Bool.false_eq_true, if_false]
      rw [← this]

/-! ## Uniqueness of the sorted array -/

/-- Two ascending arrangements of the same elements coincide when the order is antisymmetric
on these elements. -/
theorem ascending_unique {R : CStr → CStr → Prop} :
    ∀ (l1 l2 : List CStr), l1.Perm l2 → l1.Pairwise R → l2.Pairwise R →
      (∀ a ∈ l1, ∀ b ∈ l1, R a b → R b a → a = b) → l1 = l2 := by
  intro l1
  induction l1 with
  | nil => intro l2 hp _ _ _; exact hp.nil_eq
  | cons a l1 ih =>
    intro l2 hp h1 h2 hanti
    cases l2 with
    | nil => exact absurd hp.length_eq (by simp)
    | cons b l2 =>
      obtain ⟨ha, h1t⟩ := List.pairwise_cons.mp h1
      obtain ⟨hb, h2t⟩ := List.pairwise_cons.mp h2
      have hab : a = b := by
        by_contra hne
        have ha2 : a ∈ l2 := by
          rcases List.mem_cons.mp (hp.subset (List.mem_cons_self a l1)) with h | h
          · exact absurd h hne
          · exact h
        have hb1 : b ∈ l1 := by
          rcases List.mem_cons.mp (hp.symm.subset (List.mem_cons_self b l2)) with h | h
          · exact absurd h.symm hne
          · exact h
        exact hne (hanti a (List.mem_cons_self a l1) b (List.mem_cons_of_mem a hb1)
          (ha b hb1) (hb a ha2))
      subst hab
      have hp2 : l1.Perm l2 := (List.perm_cons a).mp hp
      rw [ih l2 hp2 h1t h2t
        (fun x hx y hy => hanti x (List.mem_cons_of_mem a hx) y (List.mem_cons_of_mem a hy))]

theorem fchar_compare_antisymm (a b : CStr) (h1 : fchar_compare a b ≤ 0)
    (h2 : fchar_compare b a ≤ 0) : sort_key a = sort_key b := by
  rw [fchar_compare_le_iff] at h1 h2
  omega

theorem at_most_one_pairwise (p : CStr → Bool) :
    ∀ (l : List CStr), (l.filter p).length ≤ 1 →
      l.Pairwise (fun s t => ¬ (p s = true ∧ p t = true)) := by
  intro l
  induction l with
  | nil => intro _; exact List.Pairwise.nil
  | cons x l ih =>
    intro h
    by_cases hx : p x = true
    · rw [List.filter_cons_of_pos hx] at h
      have hnil : l.filter p = [] := List.eq_nil_of_length_eq_zero (by simpa using h)
      refine List.pairwise_cons.mpr ⟨?_, ih (by simp [hnil])⟩
      intro t ht hboth
      have : t ∈ l.filter p := List.mem_filter.mpr ⟨ht, hboth.2⟩
      rw [hnil] at this
      exact absurd this (List.not_mem_nil t)
    · rw [List.filter_cons_of_neg hx] at h
      refine List.pairwise_cons.mpr ⟨fun t _ hboth => hx hboth.1, ih h⟩

/-- Valid keys pairwise distinct and at most one invalid key: no two positions of the list
carry the same key. -/
theorem keys_distinct (args : List CStr)
    (h1 : args.Pairwise (fun s t => sort_key s ≠ -1 → sort_key t ≠ -1 → sort_key s ≠ sort_key t))
    (h2 : (args.filter (fun s => decide (sort_key s = -1))).length ≤ 1) :
    args.Pairwise (fun s t => sort_key s ≠ sort_key t) := by
  have h3 := at_most_one_pairwise (fun s => decide (sort_key s = -1)) args h2
  refine (h1.and h3).imp ?_
  intro s t hst
  obtain ⟨ha, hb⟩ := hst
  simp only [decide_eq_true_eq] at hb
  intro he
  by_cases hs : sort_key s = -1
  · exact hb ⟨hs, by rw [← he]; exact hs⟩
  · exact ha hs (by rw [← he]; exact hs) he

theorem keys_injective (args : List CStr)
    (hd : args.Pairwise (fun s t => sort_key s ≠ sort_key t)) :
    ∀ a ∈ args, ∀ b ∈ args, sort_key a = sort_key b → a = b := by
  have hn : (args.map sort_key).Nodup := List.pairwise_map.mpr hd
  exact fun a ha b hb h => List.inj_on_of_nodup_map hn ha hb h

/-- With pairwise distinct keys, the sorted array is the same for every `qsort`. -/
theorem sorted_unique (args out out2 : List CStr)
    (hd : args.Pairwise (fun s t => sort_key s ≠ sort_key t))
    (hp : out.Perm args) (hs : out.Pairwise (fun a b => fchar_compare a b ≤ 0))
    (hp2 : out2.Perm args) (hs2 : out2.Pairwise (fun a b => fchar_compare a b ≤ 0)) :
    out = out2 :=
  ascending_unique out out2 (hp.trans hp2.symm) hs hs2
    (fun a ha b hb hab hba =>
      keys_injective args hd a (hp.subset ha) b (hp.subset hb) (fchar_compare_antisymm a b hab hba))

theorem alf_index_swap_case (c : Nat) : alf_index (swap_case c) = alf_index c := by
  rw [alf_index_closed, alf_index_closed]
  unfold swap_case
  split_ifs <;> omega

theorem fchar_compare_swap_case (c1 c2 : Nat) (r1 r2 : CStr) :
    fchar_compare (swap_case c1 :: r1) (c2 :: r2) = fchar_compare (c1 :: r1) (c2 :: r2) ∧
    fchar_compare (c1 :: r1) (swap_case c2 :: r2) = fchar_compare (c1 :: r1) (c2 :: r2) ∧
    fchar_compare (swap_case c1 :: r1) (swap_case c2 :: r2)
      = fchar_compare (c1 :: r1) (c2 :: r2) := by
  simp only [fchar_compare_eq, sort_key, first_char, List.headD_cons, alf_index_swap_case,
    and_self]

/-- A run on two arguments with distinct valid keys, given in either order `args`, prints
the one with the lower key first. -/
theorem two_args_run (qsort : Qsort) (hq : QsortContract qsort) (alloc : Alloc)
    (halloc : alloc.succeeds 2) (prog a b : CStr) (ha : sort_key a ≠ -1)
    (hab : sort_key a < sort_key b) (args : List CStr) (hargs : args.Perm [a, b])
    (hlen : args.length = 2) :
    sorted_args qsort alloc (prog :: args) = some [a, b] ∧
    (main qsort alloc (prog :: args)).stdout = printf_line 0 a ++ printf_line 1 b := by
  have hne : args ≠ [] := by
    intro h
    rw [h] at hlen
    exact absurd hlen (by decide)
  obtain ⟨out, h1, hp, hs, hm⟩ := run_ok qsort hq alloc prog args hne (by rw [hlen]; exact halloc)
  have hd : [a, b].Pairwise (fun s t => sort_key s ≠ sort_key t) := by
    simp only [List.pairwise_cons, List.mem_singleton, forall_eq, List.not_mem_nil,
      false_implies, implies_true, List.Pairwise.nil, and_true]
    omega
  have hs2 : [a, b].Pairwise (fun s t => fchar_compare s t ≤ 0) := by
    simp only [List.pairwise_cons, List.mem_singleton, forall_eq, List.not_mem_nil,
      false_implies, implies_true, List.Pairwise.nil, and_true]
    rw [fchar_compare_le_iff]
    omega
  have he : out = [a, b] :=
    sorted_unique [a, b] out [a, b] hd (hp.trans hargs) hs (List.Perm.refl _) hs2
  subst he
  refine ⟨h1, ?_⟩
  rw [hm]
  simp [List.range_succ]

/-! ## The sequence of keys of the sorted array -/

theorem key_le_antisymm (k1 k2 : Int) (h1 : key_le k1 k2) (h2 : key_le k2 k1) : k1 = k2 := by
  unfold key_le at h1 h2
  omega

theorem fchar_compare_le_key_le (a b : CStr) :
    fchar_compare a b ≤ 0 ↔ key_le (sort_key a) (sort_key b) :=
  fchar_compare_le_iff a b

/-- The keys of an array ascending for `fchar_compare` ascend for `key_le`. -/
theorem keys_ascending (out : List CStr)
    (hs : out.Pairwise (fun a b => fchar_compare a b ≤ 0)) :
    (out.map sort_key).Pairwise key_le :=
  List.pairwise_map.mpr (hs.imp (fun h => (fchar_compare_le_key_le _ _).mp h))

/-- Two arrangements of the same keys that both ascend for `key_le` are the same list. -/
theorem keys_unique : ∀ (l1 l2 : List Int), l1.Perm l2 → l1.Pairwise key_le →
    l2.Pairwise key_le → l1 = l2 := by
  intro l1
  induction l1 with
  | nil => intro l2 hp _ _; exact hp.nil_eq
  | cons a l1 ih =>
    intro l2 hp h1 h2
    cases l2 with
    | nil => exact absurd hp.length_eq (by simp)
    | cons b l2 =>
      obtain ⟨ha, h1t⟩ := List.pairwise_cons.mp h1
      obtain ⟨hb, h2t⟩ := List.pairwise_cons.mp h2
      have hab : a = b := by
        rcases List.mem_cons.mp (hp.subset (List.mem_cons_self a l1)) with h | ha2
        · exact h
        · rcases List.mem_cons.mp (hp.symm.subset (List.mem_cons_self b l2)) with h | hb1
          · exact h.symm
          · exact key_le_antisymm a b (ha b hb1) (hb a ha2)
      subst hab
      rw [ih l2 ((List.perm_cons a).mp hp) h1t h2t]

/-- The keys of two sorted arrays whose elements carry the same keys coincide. -/
theorem sorted_keys_eq (out out2 : List CStr)
    (hk : (out.map sort_key).Perm (out2.map sort_key))
    (hs : out.Pairwise (fun a b => fchar_compare a b ≤ 0))
    (hs2 : out2.Pairwise (fun a b => fchar_compare a b ≤ 0)) :
    out.map sort_key = out2.map sort_key :=
  keys_unique _ _ hk (keys_ascending out hs) (keys_ascending out2 hs2)

/-- The keys of a sorted array: the valid keys in non-decreasing order, then one `-1` for
each string with an invalid key. -/
theorem sorted_keys_shape (out : List CStr)
    (hs : out.Pairwise (fun a b => fchar_compare a b ≤ 0)) :
    out.map sort_key =
      (out.filter (fun s => decide (sort_key s ≠ -1))).map sort_key ++
        List.replicate (out.filter (fun s => decide (sort_key s = -1))).length (-1) ∧
    ((out.filter (fun s => decide (sort_key s ≠ -1))).map sort_key).Pairwise (fun x y => x ≤ y) ∧
    (∀ k ∈ (out.filter (fun s => decide (sort_key s ≠ -1))).map sort_key, 0 ≤ k ∧ k ≤ 25) := by
  refine ⟨?_, ?_, ?_⟩
  · have hsplit := valid_then_invalid out hs
    have hinv : (out.filter (fun s => decide (sort_key s = -1))).map sort_key =
        List.replicate (out.filter (fun s => decide (sort_key s = -1))).length (-1) := by
      rw [List.eq_replicate_iff]
      refine ⟨by simp, ?_⟩
      intro k hk
      obtain ⟨s, hsm, rfl⟩ := List.mem_map.mp hk
      simpa using (List.mem_filter.mp hsm).2
    rw [← hinv, ← List.map_append, ← hsplit]
  · refine List.pairwise_map.mpr ?_
    have hsub := hs.sublist (@List.filter_sublist _ (fun s => decide (sort_key s ≠ -1)) out)
    refine List.Pairwise.imp_of_mem ?_ hsub
    intro s t _ htv hst
    have hw : sort_key t ≠ -1 := by simpa using (List.mem_filter.mp htv).2
    have hle := (fchar_compare_le_iff s t).mp hst
    omega
  · intro k hk
    obtain ⟨s, hsm, rfl⟩ := List.mem_map.mp hk
    have hv : sort_key s ≠ -1 := by simpa using (List.mem_filter.mp hsm).2
    have hr := sort_key_range s
    omega

/-! ## A failing duplication -/

/-- When some `strdup` among the remaining iterations fails, the duplication loop stops at
the first failing position and yields no array. -/
theorem dup_loop_fail (alloc : Alloc) (argv : List CStr) :
    ∀ (n i : Nat) (acc : List CStr),
      (∃ k, i ≤ k ∧ k < i + n ∧ alloc.strdup_ok k = false) →
      ∃ k, i ≤ k ∧ k < i + n ∧ alloc.strdup_ok k = false ∧
        (∀ j, i ≤ j → j < k → alloc.strdup_ok j = true) ∧
        dup_loop alloc argv n i acc = (none, k) := by
  intro n
  induction n with
  | zero =>
    rintro i acc ⟨k, h1, h2, _⟩
    omega
  | succ n ih =>
    rintro i acc ⟨k, h1, h2, h3⟩
    by_cases hi : alloc.strdup_ok i = true
    · have hki : k ≠ i := by
        rintro rfl
        rw [hi] at h3
        exact absurd h3 (by decide)
      obtain ⟨k2, g1, g2, g3, g4, g5⟩ :=
        ih (i + 1) (acc ++ [argv.getD (i + 1) []]) ⟨k, by omega, by omega, h3⟩
      refine ⟨k2, by omega, by omega, g3, ?_, ?_⟩
      · intro j hj1 hj2
        by_cases hji : j = i
        · rw [hji]; exact hi
        · exact g4 j (by omega) hj2
      · rw [dup_loop, if_pos hi, g5]
    · have hi2 : alloc.strdup_ok i = false := by simpa using hi
      refine ⟨i, le_refl i, by omega, hi2, fun j hj1 hj2 => by omega, ?_⟩
      rw [dup_loop, if_neg hi]

theorem printf_line_head (j : Nat) (s : CStr) : 91 ∈ printf_line j s := by
  simp [printf_line, bytes]

/-! ## The claims -/

/-- C1: for every non-empty argument list, with `qsort` meeting its contract and every
allocation succeeding, the strings the driver prints (the array of copies after the `qsort`
step, written line by line) are a permutation of the arguments: same length, and every
string occurs as often in the output as in the input. -/
theorem printed_strings_perm (qsort : Qsort) (hq : QsortContract qsort) (alloc : Alloc)
    (prog : CStr) (args : List CStr) (hne : args ≠ []) (halloc : alloc.succeeds args.length) :
    ∃ out, sorted_args qsort alloc (prog :: args) = some out ∧
      (main qsort alloc (prog :: args)).stdout =
        ((List.range out.length).map (fun k => printf_line k (out.getD k []))).flatten ∧
      out.Perm args ∧ out.length = args.length ∧
      ∀ s : CStr, (out.filter (fun t => decide (t = s))).length =
        (args.filter (fun t => decide (t = s))).length := by
  obtain ⟨out, h1, hp, _, hm⟩ := run_ok qsort hq alloc prog args hne halloc
  exact ⟨out, h1, by rw [hm], hp, hp.length_eq, fun s => (hp.filter _).length_eq⟩

theorem printed_strings_perm_witness :
    ∃ out, sorted_args isort Alloc.all_ok [bytes "alfz", bytes "pear", bytes "Fig", bytes "pear"]
        = some out ∧
      (main isort Alloc.all_ok [bytes "alfz", bytes "pear", bytes "Fig", bytes "pear"]).stdout =
        ((List.range out.length).map (fun k => printf_line k (out.getD k []))).flatten ∧
      out.Perm [bytes "pear", bytes "Fig", bytes "pear"] ∧
      out.length = [bytes "pear", bytes "Fig", bytes "pear"].length ∧
      ∀ s : CStr, (out.filter (fun t => decide (t = s))).length =
        ([bytes "pear", bytes "Fig", bytes "pear"].filter (fun t => decide (t = s))).length :=
  printed_strings_perm isort isort_contract Alloc.all_ok (bytes "alfz")
    [bytes "pear", bytes "Fig", bytes "pear"] (by decide) (Alloc.all_ok_succeeds _)

/-- C2: for every non-empty argument list, whenever two strings adjacent in the sorted
output both start with a letter, `alf_index` of the first character of the earlier one is at
most `alf_index` of the first character of the later one. -/
theorem adjacent_keys_ascend (qsort : Qsort) (hq : QsortContract qsort) (alloc : Alloc)
    (prog : CStr) (args : List CStr) (hne : args ≠ []) (halloc : alloc.succeeds args.length) :
    ∃ out, sorted_args qsort alloc (prog :: args) = some out ∧
      ∀ (k : Nat) (h : k + 1 < out.length),
        is_letter (first_char out[k]) → is_letter (first_char out[k + 1]) →
        alf_index (first_char out[k]) ≤ alf_index (first_char out[k + 1]) := by
  obtain ⟨out, h1, _, hs, _⟩ := run_ok qsort hq alloc prog args hne halloc
  refine ⟨out, h1, ?_⟩
  intro k h hk hk1
  have hle := List.pairwise_iff_getElem.mp hs k (k + 1) (by omega) h (by omega)
  have hv := (fchar_compare_le_iff _ _).mp hle
  have hk1v : sort_key out[k + 1] ≠ -1 := fun e => ((alf_index_invalid_iff _).mp e) hk1
  have : sort_key out[k] ≤ sort_key out[k + 1] := by omega
  exact this

theorem adjacent_keys_ascend_witness :
    ∃ out, sorted_args isort Alloc.all_ok [bytes "alfz", bytes "pear", bytes "Fig", bytes "apple"]
        = some out ∧
      ∀ (k : Nat) (h : k + 1 < out.length),
        is_letter (first_char out[k]) → is_letter (first_char out[k + 1]) →
        alf_index (first_char out[k]) ≤ alf_index (first_char out[k + 1]) :=
  adjacent_keys_ascend isort isort_contract Alloc.all_ok (bytes "alfz")
    [bytes "pear", bytes "Fig", bytes "apple"] (by decide) (Alloc.all_ok_succeeds _)

/-- C3: for every non-empty argument list, no string with an invalid key (`alf_index` of its
first character is `-1`) stands before a string with a valid key in the sorted output: the
output is the strings with a valid key followed by the strings with an invalid key. -/
theorem invalid_keys_are_suffix (qsort : Qsort) (hq : QsortContract qsort) (alloc : Alloc)
    (prog : CStr) (args : List CStr) (hne : args ≠ []) (halloc : alloc.succeeds args.length) :
    ∃ out, sorted_args qsort alloc (prog :: args) = some out ∧
      (∀ (j k : Nat) (_ : j < k) (hk : k < out.length),
        alf_index (first_char out[j]) = -1 → alf_index (first_char out[k]) = -1) ∧
      ∃ v w, out = v ++ w ∧ (∀ s ∈ v, alf_index (first_char s) ≠ -1) ∧
        (∀ s ∈ w, alf_index (first_char s) = -1) := by
  obtain ⟨out, h1, _, hs, _⟩ := run_ok qsort hq alloc prog args hne halloc
  refine ⟨out, h1, ?_, _, _, valid_then_invalid out hs, ?_, ?_⟩
  · intro j k hjk hk hj
    have hle := List.pairwise_iff_getElem.mp hs j k (by omega) hk hjk
    have hv := (fchar_compare_le_iff _ _).mp hle
    have hj2 : sort_key out[j] = -1 := hj
    have : sort_key out[k] = -1 := by omega
    exact this
  · intro s hsv
    have := (List.mem_filter.mp hsv).2
    simpa [sort_key] using this
  · intro s hsw
    have := (List.mem_filter.mp hsw).2
    simpa [sort_key] using this

theorem invalid_keys_are_suffix_witness :
    ∃ out, sorted_args isort Alloc.all_ok
        [bytes "alfz", bytes "3x", bytes "cat", bytes "", bytes "Bee"] = some out ∧
      (∀ (j k : Nat) (_ : j < k) (hk : k < out.length),
        alf_index (first_char out[j]) = -1 → alf_index (first_char out[k]) = -1) ∧
      ∃ v w, out = v ++ w ∧ (∀ s ∈ v, alf_index (first_char s) ≠ -1) ∧
        (∀ s ∈ w, alf_index (first_char s) = -1) :=
  invalid_keys_are_suffix isort isort_contract Alloc.all_ok (bytes "alfz")
    [bytes "3x", bytes "cat", bytes "", bytes "Bee"] (by decide) (Alloc.all_ok_succeeds _)

/-- C4: for every character `c`, `alf_index c` is `k` with `0 ≤ k ≤ 25` exactly when `c` is
the `k`-th lowercase letter (`'a' + k`, entry `k` of `alfm_arr`) or the `k`-th uppercase
letter (`'A' + k`, entry `k` of `alfc_arr`), and it is `-1` for every other character: the
NUL byte, digits, punctuation, whitespace and every byte above the ASCII range. -/
theorem alf_index_spec (c : Nat) :
    (∀ k : Nat, k ≤ 25 →
      (alf_index c = (k : Int) ↔ (c = 97 + k ∨ c = 65 + k)) ∧
      alfm_arr.getD k 0 = 97 + k ∧ alfc_arr.getD k 0 = 65 + k) ∧
    (¬ is_letter c → alf_index c = -1) ∧
    (is_letter c → 0 ≤ alf_index c ∧ alf_index c ≤ 25) ∧
    alf_index 0 = -1 ∧ (128 ≤ c → alf_index c = -1) := by
  refine ⟨?_, ?_, ?_, by decide, ?_⟩
  · intro k hk
    refine ⟨?_, ?_, ?_⟩
    · rw [alf_index_closed]
      split_ifs <;> constructor <;> intro hh <;> first | omega | exact hh.elim
    · revert k
      decide
    · revert k
      decide
  · exact (alf_index_invalid_iff c).mpr
  · intro h
    have h1 := alf_index_range c
    have h2 := alf_index_invalid_iff c
    have h3 : alf_index c ≠ -1 := fun e => (h2.mp e) h
    omega
  · intro h
    exact (alf_index_invalid_iff c).mpr (by unfold is_letter; omega)

theorem alf_index_spec_witness :
    alf_index 113 = 16 ∧ alf_index 81 = 16 ∧ alf_index 48 = -1 ∧ alf_index 200 = -1 :=
  ⟨((alf_index_spec 113).1 16 (by decide)).1.mpr (Or.inl rfl),
    ((alf_index_spec 81).1 16 (by decide)).1.mpr (Or.inr rfl),
    (alf_index_spec 48).2.1 (by decide),
    (alf_index_spec 200).2.2.2.2 (by decide)⟩

/-- C5: for all strings `a` and `b` with keys `ka` and `kb` (`alf_index` of the first
character), `fchar_compare a b` is `0` when both keys are `-1`, positive when only `ka` is
`-1`, negative when only `kb` is `-1`, and `ka - kb` when both are valid, so that its sign
then compares `ka` with `kb`; two strings starting with the same letter, in either case and
with any remaining text, compare equal. -/
theorem fchar_compare_spec (a b : CStr) :
    (alf_index (first_char a) = -1 ∧ alf_index (first_char b) = -1 → fchar_compare a b = 0) ∧
    (alf_index (first_char a) = -1 ∧ alf_index (first_char b) ≠ -1 → 0 < fchar_compare a b) ∧
    (alf_index (first_char a) ≠ -1 ∧ alf_index (first_char b) = -1 → fchar_compare a b < 0) ∧
    (alf_index (first_char a) ≠ -1 ∧ alf_index (first_char b) ≠ -1 →
      fchar_compare a b = alf_index (first_char a) - alf_index (first_char b) ∧
      (fchar_compare a b < 0 ↔ alf_index (first_char a) < alf_index (first_char b)) ∧
      (fchar_compare a b = 0 ↔ alf_index (first_char a) = alf_index (first_char b)) ∧
      (0 < fchar_compare a b ↔ alf_index (first_char b) < alf_index (first_char a))) ∧
    (∀ (k : Nat) (c1 c2 : Nat) (r1 r2 : CStr), k ≤ 25 →
      (c1 = 97 + k ∨ c1 = 65 + k) → (c2 = 97 + k ∨ c2 = 65 + k) →
      fchar_compare (c1 :: r1) (c2 :: r2) = 0) := by
  have h := fchar_compare_eq a b
  simp only [sort_key] at h
  refine ⟨?_, ?_, ?_, ?_, ?_⟩
  · intro hk
    rw [h, if_pos hk]
  · rintro ⟨h1, h2⟩
    rw [h, if_neg (by tauto), if_pos h1]
    decide
  · rintro ⟨h1, h2⟩
    rw [h, if_neg (by tauto), if_neg h1, if_pos h2]
    decide
  · rintro ⟨h1, h2⟩
    rw [h, if_neg (by tauto), if_neg h1, if_neg h2]
    refine ⟨rfl, ?_, ?_, ?_⟩ <;> omega
  · intro k c1 c2 r1 r2 hk h1 h2
    rw [fchar_compare_eq]
    simp only [sort_key, first_char, List.headD_cons]
    rw [alf_index_closed c1, alf_index_closed c2]
    split_ifs <;> omega

theorem fchar_compare_spec_witness :
    fchar_compare (bytes "3x") (bytes "") = 0 ∧
    0 < fchar_compare (bytes "3x") (bytes "cat") ∧
    fchar_compare (bytes "cat") (bytes "3x") < 0 ∧
    fchar_compare (bytes "cat") (bytes "Bee")
      = alf_index (first_char (bytes "cat")) - alf_index (first_char (bytes "Bee")) ∧
    fchar_compare (bytes "cat") (bytes "Cow") = 0 :=
  ⟨(fchar_compare_spec (bytes "3x") (bytes "")).1 ⟨by decide, by decide⟩,
    (fchar_compare_spec (bytes "3x") (bytes "cat")).2.1 ⟨by decide, by decide⟩,
    (fchar_compare_spec (bytes "cat") (bytes "3x")).2.2.1 ⟨by decide, by decide⟩,
    ((fchar_compare_spec (bytes "cat") (bytes "Bee")).2.2.2.1 ⟨by decide, by decide⟩).1,
    (fchar_compare_spec [] []).2.2.2.2 2 99 67 (bytes "at") (bytes "ow") (by decide)
      (Or.inl rfl) (Or.inr rfl)⟩

/-- C6: the key the comparator computes for a string `s`, `alf_index` of `s[0]`, where `s[0]`
of the empty string is the terminating NUL: it is `-1` for the empty string; for a string
starting with the character `c` it is `-1` exactly when `c` is not an ASCII letter, and
otherwise it is the alphabet index `0..25` of `c`.  It is this key that `fchar_compare`
tests and subtracts. -/
theorem sort_key_spec (s : CStr) :
    (sort_key s = -1 ↔ (s = [] ∨ ¬ is_letter (first_char s))) ∧
    (s = [] → first_char s = 0 ∧ sort_key s = -1) ∧
    (∀ c r, s = c :: r → first_char s = c ∧ (sort_key s = -1 ↔ ¬ is_letter c) ∧
      (is_letter c → ∃ k : Nat, k ≤ 25 ∧ sort_key s = (k : Int) ∧ (c = 97 + k ∨ c = 65 + k))) ∧
    (∀ t i, (fchar_compare_st s t i).1 =
        if sort_key s = -1 ∧ sort_key t = -1 then 0
        else if sort_key s = -1 then 1
        else if sort_key t = -1 then -1
        else sort_key s - sort_key t) := by
  refine ⟨?_, ?_, ?_, ?_⟩
  · constructor
    · intro h
      exact Or.inr ((alf_index_invalid_iff _).mp h)
    · rintro (rfl | h)
      · decide
      · exact (alf_index_invalid_iff _).mpr h
  · rintro rfl
    exact ⟨rfl, by decide⟩
  · rintro c r rfl
    refine ⟨rfl, alf_index_invalid_iff c, ?_⟩
    intro hc
    simp only [sort_key, first_char, List.headD_cons]
    rw [alf_index_closed]
    unfold is_letter at hc
    by_cases h1 : 97 ≤ c ∧ c ≤ 122
    · exact ⟨c - 97, by omega, by rw [if_pos h1]; omega, by omega⟩
    · have h2 : 65 ≤ c ∧ c ≤ 90 := by omega
      exact ⟨c - 65, by omega, by rw [if_neg h1, if_pos h2]; omega, by omega⟩
  · intro t i
    rw [fchar_compare_st_fst, fchar_compare_eq]

theorem sort_key_spec_witness :
    sort_key [] = -1 ∧ sort_key (bytes "3x") = -1 ∧
    ∃ k : Nat, k ≤ 25 ∧ sort_key (bytes "Bee") = (k : Int) ∧ (66 = 97 + k ∨ 66 = 65 + k) :=
  ⟨((sort_key_spec []).2.1 rfl).2,
    ((sort_key_spec (bytes "3x")).2.2.1 51 [120] rfl).2.1.mpr (by decide),
    ((sort_key_spec (bytes "Bee")).2.2.1 66 [101, 101] rfl).2.2 (by decide)⟩

/-- C7: for every non-empty list of `N` arguments, with every allocation succeeding, the
driver returns status `0` and writes exactly `N` lines, line `i` being `[`, the decimal
digits of `i`, `][`, the first character of the `i`-th string of the sorted array, `]: `,
that string, a space and a newline: the index is the position in the output. -/
theorem main_prints_sorted_lines (qsort : Qsort) (hq : QsortContract qsort) (alloc : Alloc)
    (prog : CStr) (args : List CStr) (hne : args ≠ []) (halloc : alloc.succeeds args.length) :
    ∃ (out : List CStr) (lines : List (List Nat)),
      sorted_args qsort alloc (prog :: args) = some out ∧
      out.length = args.length ∧ lines.length = args.length ∧
      (main qsort alloc (prog :: args)).status = 0 ∧
      (main qsort alloc (prog :: args)).stdout = lines.flatten ∧
      ∀ (i : Nat) (h : i < out.length) (h2 : i < lines.length),
        lines[i] = bytes "[" ++ decimal i ++ bytes "][" ++ [first_char out[i]] ++ bytes "]: "
          ++ out[i] ++ bytes " " ++ [10] := by
  obtain ⟨out, h1, hp, _, hm⟩ := run_ok qsort hq alloc prog args hne halloc
  refine ⟨out, (List.range out.length).map (fun k => printf_line k (out.getD k [])),
    h1, hp.length_eq, by simp [hp.length_eq], by rw [hm], by rw [hm], ?_⟩
  intro i h h2
  simp only [List.getElem_map, List.getElem_range, printf_line]
  have hg : out.getD i [] = out[i] := by
    simp [List.getD_eq_getElem?_getD, List.getElem?_eq_getElem h]
  rw [hg]
  simp [bytes]

theorem main_prints_sorted_lines_witness :
    (∃ (out : List CStr) (lines : List (List Nat)),
      sorted_args isort Alloc.all_ok [bytes "alfz", bytes "3x", bytes "cat", bytes "Bee"]
        = some out ∧
      out.length = [bytes "3x", bytes "cat", bytes "Bee"].length ∧
      lines.length = [bytes "3x", bytes "cat", bytes "Bee"].length ∧
      (main isort Alloc.all_ok [bytes "alfz", bytes "3x", bytes "cat", bytes "Bee"]).status = 0 ∧
      (main isort Alloc.all_ok [bytes "alfz", bytes "3x", bytes "cat", bytes "Bee"]).stdout
        = lines.flatten ∧
      ∀ (i : Nat) (h : i < out.length) (h2 : i < lines.length),
        lines[i] = bytes "[" ++ decimal i ++ bytes "][" ++ [first_char out[i]] ++ bytes "]: "
          ++ out[i] ++ bytes " " ++ [10]) ∧
    (main isort Alloc.all_ok [bytes "alfz", bytes "3x", bytes "cat", bytes "Bee"]).stdout
      = bytes "[0][B]: Bee \n[1][c]: cat \n[2][3]: 3x \n" :=
  ⟨main_prints_sorted_lines isort isort_contract Alloc.all_ok (bytes "alfz")
    [bytes "3x", bytes "cat", bytes "Bee"] (by decide) (Alloc.all_ok_succeeds _), by decide⟩

/-- C8: when the argument list (`argv` without the program name) is empty, the driver
returns status `1`, its whole output is the line `ERROR: no arguments passed`, and nothing
is sorted; conversely, when every allocation succeeds, status `1` is returned only for an
empty argument list. -/
theorem no_arguments_error (qsort : Qsort) (alloc : Alloc) (argv : List CStr) :
    (argv.tail = [] →
      (main qsort alloc argv).status = 1 ∧
      (main qsort alloc argv).stdout = bytes "ERROR: no arguments passed" ++ [10] ∧
      sorted_args qsort alloc argv = none) ∧
    (alloc.succeeds argv.tail.length → (main qsort alloc argv).status = 1 →
      argv.tail = []) := by
  constructor
  · intro h
    have hlen : argv.length ≤ 1 := by
      cases argv with
      | nil => simp
      | cons p l =>
        simp only [List.tail_cons] at h
        simp [h]
    simp only [main, sorted_args, if_pos hlen]
    exact ⟨rfl, rfl, trivial⟩
  · intro halloc hst
    cases argv with
    | nil => rfl
    | cons p l =>
      by_contra hne
      simp only [List.tail_cons] at hne halloc
      rw [(main_ok qsort alloc p l hne halloc).2] at hst
      have h01 : (0 : Int) ≠ 1 := by decide
      exact h01 hst

theorem no_arguments_error_witness :
    ((main isort Alloc.all_ok [bytes "alfz"]).status = 1 ∧
      (main isort Alloc.all_ok [bytes "alfz"]).stdout = bytes "ERROR: no arguments passed" ++ [10] ∧
      sorted_args isort Alloc.all_ok [bytes "alfz"] = none) ∧
    ((main isort Alloc.all_ok [bytes "alfz", bytes "cat"]).status = 1 → False) :=
  ⟨(no_arguments_error isort Alloc.all_ok [bytes "alfz"]).1 rfl,
    fun h => absurd
      ((no_arguments_error isort Alloc.all_ok [bytes "alfz", bytes "cat"]).2
        (Alloc.all_ok_succeeds _) h)
      (by decide)⟩

/-- C9: the ordering is case-insensitive.  Changing the case of the first character of
either string leaves the result of `fchar_compare` unchanged; for two arguments with distinct
valid keys the string with the lower key is printed first, whatever the case of the letters
and whichever comes first in the input; and the input `Banana`, `apple` is printed as `apple`
(key 0) then `Banana` (key 1). -/
theorem order_is_case_insensitive (qsort : Qsort) (hq : QsortContract qsort) (alloc : Alloc)
    (halloc : alloc.succeeds 2) (prog : CStr) :
    (∀ (c1 c2 : Nat) (r1 r2 : CStr), is_letter c1 → is_letter c2 →
      swap_case c1 ≠ c1 ∧ swap_case c2 ≠ c2 ∧
      is_letter (swap_case c1) ∧ is_letter (swap_case c2) ∧
      fchar_compare (swap_case c1 :: r1) (c2 :: r2) = fchar_compare (c1 :: r1) (c2 :: r2) ∧
      fchar_compare (c1 :: r1) (swap_case c2 :: r2) = fchar_compare (c1 :: r1) (c2 :: r2) ∧
      fchar_compare (swap_case c1 :: r1) (swap_case c2 :: r2)
        = fchar_compare (c1 :: r1) (c2 :: r2)) ∧
    (∀ a b : CStr, alf_index (first_char a) ≠ -1 → alf_index (first_char b) ≠ -1 →
      alf_index (first_char a) < alf_index (first_char b) →
      sorted_args qsort alloc [prog, a, b] = some [a, b] ∧
      sorted_args qsort alloc [prog, b, a] = some [a, b] ∧
      (main qsort alloc [prog, a, b]).stdout = printf_line 0 a ++ printf_line 1 b ∧
      (main qsort alloc [prog, b, a]).stdout = printf_line 0 a ++ printf_line 1 b) ∧
    (alf_index (first_char (bytes "apple")) = 0 ∧
      alf_index (first_char (bytes "Banana")) = 1 ∧
      sorted_args qsort alloc [prog, bytes "Banana", bytes "apple"]
        = some [bytes "apple", bytes "Banana"] ∧
      (main qsort alloc [prog, bytes "Banana", bytes "apple"]).stdout
        = bytes "[0][a]: apple \n[1][B]: Banana \n") := by
  refine ⟨?_, ?_, ?_⟩
  · intro c1 c2 r1 r2 h1 h2
    obtain ⟨e1, e2, e3⟩ := fchar_compare_swap_case c1 c2 r1 r2
    unfold is_letter at h1 h2
    refine ⟨?_, ?_, ?_, ?_, e1, e2, e3⟩
    · unfold swap_case
      split_ifs <;> omega
    · unfold swap_case
      split_ifs <;> omega
    · unfold is_letter swap_case
      split_ifs <;> omega
    · unfold is_letter swap_case
      split_ifs <;> omega
  · intro a b ha _ hab
    have r1 := two_args_run qsort hq alloc halloc prog a b ha hab [a, b] (List.Perm.refl _) rfl
    have r2 := two_args_run qsort hq alloc halloc prog a b ha hab [b, a]
      (List.Perm.swap a b []) rfl
    exact ⟨r1.1, r2.1, r1.2, r2.2⟩
  · have r := two_args_run qsort hq alloc halloc prog (bytes "apple") (bytes "Banana")
      (by decide) (by decide) [bytes "Banana", bytes "apple"] (List.Perm.swap _ _ []) rfl
    refine ⟨by decide, by decide, r.1, ?_⟩
    rw [r.2]
    decide

theorem order_is_case_insensitive_witness :
    QsortContract isort ∧ Alloc.all_ok.succeeds 2 ∧
    sorted_args isort Alloc.all_ok [bytes "alfz", bytes "Banana", bytes "apple"]
      = some [bytes "apple", bytes "Banana"] ∧
    (main isort Alloc.all_ok [bytes "alfz", bytes "Banana", bytes "apple"]).stdout
      = bytes "[0][a]: apple \n[1][B]: Banana \n" :=
  ⟨isort_contract, Alloc.all_ok_succeeds 2,
    (order_is_case_insensitive isort isort_contract Alloc.all_ok (Alloc.all_ok_succeeds 2)
      (bytes "alfz")).2.2.2.2.1,
    (order_is_case_insensitive isort isort_contract Alloc.all_ok (Alloc.all_ok_succeeds 2)
      (bytes "alfz")).2.2.2.2.2⟩

/-- C10: when the valid keys of the arguments are pairwise distinct and at most one argument
has an invalid key, the sorted output is the same whatever sort meeting the contract of
`qsort` is used: the strings with a valid key in strictly ascending key order, followed by
the string with an invalid key if there is one.  In particular the input `3x`, `cat`, `Bee`
is output as `Bee`, `cat`, `3x`. -/
theorem distinct_keys_output_unique (qsort qsort2 : Qsort) (hq : QsortContract qsort)
    (hq2 : QsortContract qsort2) (alloc : Alloc) (prog : CStr) (args : List CStr)
    (hne : args ≠ []) (halloc : alloc.succeeds args.length)
    (hvalid : args.Pairwise (fun s t => alf_index (first_char s) ≠ -1 →
      alf_index (first_char t) ≠ -1 → alf_index (first_char s) ≠ alf_index (first_char t)))
    (hinvalid : (args.filter (fun s => decide (alf_index (first_char s) = -1))).length ≤ 1) :
    (∃ out v w, sorted_args qsort alloc (prog :: args) = some out ∧
      sorted_args qsort2 alloc (prog :: args) = some out ∧
      main qsort2 alloc (prog :: args) = main qsort alloc (prog :: args) ∧
      (main qsort alloc (prog :: args)).stdout =
        ((List.range out.length).map (fun k => printf_line k (out.getD k []))).flatten ∧
      out.Perm args ∧ out = v ++ w ∧
      (∀ s ∈ v, alf_index (first_char s) ≠ -1) ∧
      v.Pairwise (fun s t => alf_index (first_char s) < alf_index (first_char t)) ∧
      (∀ s ∈ w, alf_index (first_char s) = -1) ∧ w.length ≤ 1) ∧
    (args = [bytes "3x", bytes "cat", bytes "Bee"] →
      sorted_args qsort alloc (prog :: args) = some [bytes "Bee", bytes "cat", bytes "3x"] ∧
      (main qsort alloc (prog :: args)).stdout
        = bytes "[0][B]: Bee \n[1][c]: cat \n[2][3]: 3x \n") := by
  have hd := keys_distinct args hvalid hinvalid
  obtain ⟨out, h1, hp, hs, hm⟩ := run_ok qsort hq alloc prog args hne halloc
  obtain ⟨out2, g1, gp, gs, gm⟩ := run_ok qsort2 hq2 alloc prog args hne halloc
  have he : out2 = out := sorted_unique args out2 out hd gp gs hp hs
  subst he
  constructor
  · refine ⟨out2, _, _, h1, g1, by rw [hm, gm], by rw [hm], hp, valid_then_invalid out2 hs,
      ?_, ?_, ?_, ?_⟩
    · intro s hsv
      simpa [sort_key] using (List.mem_filter.mp hsv).2
    · have hd2 : out2.Pairwise (fun s t => sort_key s ≠ sort_key t) :=
        hp.symm.pairwise hd (fun h => Ne.symm h)
      have hboth := (hs.and hd2).sublist
        (@List.filter_sublist _ (fun s => decide (sort_key s ≠ -1)) out2)
      refine List.Pairwise.imp_of_mem ?_ hboth
      intro s t hsv htv hst
      have hv : sort_key s ≠ -1 := by simpa using (List.mem_filter.mp hsv).2
      have hw : sort_key t ≠ -1 := by simpa using (List.mem_filter.mp htv).2
      have hle := (fchar_compare_le_iff s t).mp hst.1
      have hne2 : sort_key s ≠ sort_key t := hst.2
      have : sort_key s < sort_key t := by
        have hrs := sort_key_range s
        have hrt := sort_key_range t
        omega
      exact this
    · intro s hsw
      simpa [sort_key] using (List.mem_filter.mp hsw).2
    · exact le_of_eq_of_le (hp.filter _).length_eq hinvalid
  · intro hargs
    subst hargs
    have hs3 : [bytes "Bee", bytes "cat", bytes "3x"].Pairwise
        (fun a b => fchar_compare a b ≤ 0) := by decide
    have hp3 : [bytes "Bee", bytes "cat", bytes "3x"].Perm
        [bytes "3x", bytes "cat", bytes "Bee"] := by decide
    have he : out2 = [bytes "Bee", bytes "cat", bytes "3x"] :=
      sorted_unique _ out2 _ hd hp hs hp3 hs3
    subst he
    refine ⟨h1, ?_⟩
    rw [hm]
    decide

theorem distinct_keys_output_unique_witness :
    sorted_args isort Alloc.all_ok [bytes "alfz", bytes "3x", bytes "cat", bytes "Bee"]
      = some [bytes "Bee", bytes "cat", bytes "3x"] ∧
    (main isort Alloc.all_ok [bytes "alfz", bytes "3x", bytes "cat", bytes "Bee"]).stdout
      = bytes "[0][B]: Bee \n[1][c]: cat \n[2][3]: 3x \n" :=
  (distinct_keys_output_unique isort isort isort_contract isort_contract Alloc.all_ok
    (bytes "alfz") [bytes "3x", bytes "cat", bytes "Bee"] (by decide)
    (Alloc.all_ok_succeeds _) (by decide) (by decide)).2 rfl

/-- C11: sorting is idempotent on keys.  For every argument list, feeding the sorted output
back in as the arguments gives an output with the same sequence of sort keys (`alf_index` of
the first character, position by position) as the first output.  An empty argument list
has no sorted output to feed back. -/
theorem sorting_idempotent_on_keys (qsort : Qsort) (hq : QsortContract qsort) (alloc : Alloc)
    (prog : CStr) (args : List CStr) (halloc : alloc.succeeds args.length) :
    (args = [] → sorted_args qsort alloc (prog :: args) = none) ∧
    (args ≠ [] → ∃ out out2, sorted_args qsort alloc (prog :: args) = some out ∧
      sorted_args qsort alloc (prog :: out) = some out2 ∧
      out2.length = out.length ∧
      out2.map (fun s => alf_index (first_char s)) = out.map (fun s => alf_index (first_char s)) ∧
      ∀ (k : Nat) (h : k < out.length) (h2 : k < out2.length),
        alf_index (first_char out2[k]) = alf_index (first_char out[k])) := by
  constructor
  · rintro rfl
    rfl
  · intro hne
    obtain ⟨out, h1, hp, hs, _⟩ := run_ok qsort hq alloc prog args hne halloc
    have hne2 : out ≠ [] := by
      intro h
      rw [h] at hp
      exact hne hp.nil_eq.symm
    obtain ⟨out2, g1, gp, gs, _⟩ := run_ok qsort hq alloc prog out hne2
      (by rw [hp.length_eq]; exact halloc)
    have hk : out2.map sort_key = out.map sort_key :=
      sorted_keys_eq out2 out (gp.map sort_key) gs hs
    refine ⟨out, out2, h1, g1, gp.length_eq, hk, ?_⟩
    intro k h h2
    have h3 := congrArg (fun l => l[k]?) hk
    simpa [List.getElem?_map, List.getElem?_eq_getElem h, List.getElem?_eq_getElem h2,
      sort_key] using h3

theorem sorting_idempotent_on_keys_witness :
    ∃ out out2,
      sorted_args isort Alloc.all_ok [bytes "alfz", bytes "cat", bytes "3x", bytes "Cow", bytes "ant"]
        = some out ∧
      sorted_args isort Alloc.all_ok (bytes "alfz" :: out) = some out2 ∧
      out2.length = out.length ∧
      out2.map (fun s => alf_index (first_char s)) = out.map (fun s => alf_index (first_char s)) ∧
      ∀ (k : Nat) (h : k < out.length) (h2 : k < out2.length),
        alf_index (first_char out2[k]) = alf_index (first_char out[k]) :=
  (sorting_idempotent_on_keys isort isort_contract Alloc.all_ok (bytes "alfz")
    [bytes "cat", bytes "3x", bytes "Cow", bytes "ant"] (Alloc.all_ok_succeeds _)).2 (by decide)

/-- C12: for every single argument `s`, also an empty one or one starting with a non-letter,
the driver returns status `0` and its output is exactly one line, with index `0`, the first
character of `s` and the string `s` itself, unchanged. -/
theorem single_argument_run (qsort : Qsort) (hq : QsortContract qsort) (alloc : Alloc)
    (halloc : alloc.succeeds 1) (prog s : CStr) :
    sorted_args qsort alloc [prog, s] = some [s] ∧
    (main qsort alloc [prog, s]).status = 0 ∧
    (main qsort alloc [prog, s]).stdout
      = bytes "[0][" ++ [first_char s] ++ bytes "]: " ++ s ++ bytes " \n" := by
  obtain ⟨out, h1, hp, _, hm⟩ := run_ok qsort hq alloc prog [s] (by simp) halloc
  have he : out = [s] := List.perm_singleton.mp hp
  subst he
  refine ⟨h1, by rw [hm], ?_⟩
  have hline : printf_line 0 s
      = bytes "[0][" ++ [first_char s] ++ bytes "]: " ++ s ++ bytes " \n" := rfl
  rw [hm, ← hline]
  simp [List.range_succ]

theorem single_argument_run_witness :
    (sorted_args isort Alloc.all_ok [bytes "alfz", bytes ""] = some [bytes ""] ∧
      (main isort Alloc.all_ok [bytes "alfz", bytes ""]).status = 0 ∧
      (main isort Alloc.all_ok [bytes "alfz", bytes ""]).stdout
        = bytes "[0][" ++ [first_char (bytes "")] ++ bytes "]: " ++ bytes "" ++ bytes " \n") ∧
    (main isort Alloc.all_ok [bytes "alfz", bytes "3x"]).stdout = bytes "[0][3]: 3x \n" :=
  ⟨single_argument_run isort isort_contract Alloc.all_ok (Alloc.all_ok_succeeds 1)
    (bytes "alfz") (bytes ""), by decide⟩

/-- C13: for each of the 256 byte values of a character, and for every larger value as
well, the linear scan `alf_index` over the two alphabet tables returns what the direct
arithmetic mapping returns: case-fold to lowercase, subtract `'a'`, keep the difference if
it lies in `0..25` and return `-1` otherwise. -/
theorem alf_index_eq_direct (c : Nat) :
    alf_index c = alf_index_direct c ∧
    (∀ i, (alf_index_st c i).1 = alf_index_direct c) ∧
    (∀ b : Fin 256, alf_index b.val = alf_index_direct b.val) := by
  have key : ∀ x : Nat, alf_index x = alf_index_direct x := by
    intro x
    rw [alf_index_closed]
    simp only [alf_index_direct, tolower]
    split_ifs <;> push_cast at * <;> omega
  exact ⟨key c, fun _ => key c, fun b => key b.val⟩

/-- C14: if the duplication of an argument fails, at whatever position, the driver returns
status `1` and nothing is sorted or printed in the `[index][char]: string` form: the loop
stops at the first failing `strdup`, before the `qsort` call and the print loop, and the
whole output is the diagnostic line, the same whatever `qsort` would have done. -/
theorem strdup_failure_aborts (qsort : Qsort) (alloc : Alloc) (argv : List CStr) (k : Nat)
    (hmalloc : alloc.malloc_ok = true) (hk : k < argv.length - 1)
    (hfail : alloc.strdup_ok k = false) :
    (main qsort alloc argv).status = 1 ∧
    (main qsort alloc argv).stdout = bytes "ERROR: null pointer exception (NPE)" ++ [10] ∧
    sorted_args qsort alloc argv = none ∧
    (∀ (j : Nat) (s : CStr), ¬ List.IsInfix (printf_line j s) (main qsort alloc argv).stdout) ∧
    (∀ qsort2 : Qsort, main qsort2 alloc argv = main qsort alloc argv) ∧
    (main qsort alloc argv).i ≤ k ∧ alloc.strdup_ok (main qsort alloc argv).i = false ∧
    (∀ j, j < (main qsort alloc argv).i → alloc.strdup_ok j = true) := by
  have hlen : ¬ argv.length ≤ 1 := by omega
  have hm : ¬ alloc.malloc_ok = false := by simp [hmalloc]
  obtain ⟨k2, _, g2, g3, g4, g5⟩ :=
    dup_loop_fail alloc argv (argv.length - 1) 0 [] ⟨k, Nat.zero_le k, by omega, hfail⟩
  have hmain : ∀ q : Qsort, main q alloc argv =
      ⟨1, bytes "ERROR: null pointer exception (NPE)" ++ [10], k2⟩ := by
    intro q
    unfold main
    simp only [if_neg hlen, if_neg hm, g5]
    rfl
  by_cases hle : k2 ≤ k
  · refine ⟨by rw [hmain], by rw [hmain], ?_, ?_, ?_, by rw [hmain]; exact hle,
      by rw [hmain]; exact g3, ?_⟩
    · unfold sorted_args
      simp only [if_neg hlen, if_neg hm, g5]
    · intro j s hin
      rw [hmain] at hin
      have h91 : 91 ∈ bytes "ERROR: null pointer exception (NPE)" ++ [10] :=
        hin.subset (printf_line_head j s)
      exact absurd h91 (by decide)
    · intro q2
      rw [hmain, hmain]
    · intro j hj
      rw [hmain] at hj
      exact g4 j (Nat.zero_le j) hj
  · have := g4 k (Nat.zero_le k) (by omega)
    rw [hfail] at this
    exact absurd this (by decide)

theorem strdup_failure_aborts_witness :
    (main isort ⟨true, fun j => decide (j ≠ 1)⟩
        [bytes "alfz", bytes "cat", bytes "Bee", bytes "ant"]).status = 1 ∧
    (main isort ⟨true, fun j => decide (j ≠ 1)⟩
        [bytes "alfz", bytes "cat", bytes "Bee", bytes "ant"]).stdout
      = bytes "ERROR: null pointer exception (NPE)" ++ [10] :=
  ⟨(strdup_failure_aborts isort ⟨true, fun j => decide (j ≠ 1)⟩
      [bytes "alfz", bytes "cat", bytes "Bee", bytes "ant"] 1 rfl (by decide) (by decide)).1,
    (strdup_failure_aborts isort ⟨true, fun j => decide (j ≠ 1)⟩
      [bytes "alfz", bytes "cat", bytes "Bee", bytes "ant"] 1 rfl (by decide) (by decide)).2.1⟩

/-- C15: `fchar_compare` is a consistent ordering, as `qsort` requires.  A string compares
equal to itself; exchanging the arguments negates the sign; "not greater" is transitive; and
comparing equal is an equivalence relation, two strings being equivalent exactly when they
have the same key, so that its classes are the 26 letter keys and the class of the strings
with an invalid key. -/
theorem fchar_compare_ordering :
    (∀ a : CStr, fchar_compare a a = 0) ∧
    (∀ a b : CStr, Int.sign (fchar_compare a b) = - Int.sign (fchar_compare b a)) ∧
    (∀ a b c : CStr, fchar_compare a b ≤ 0 → fchar_compare b c ≤ 0 → fchar_compare a c ≤ 0) ∧
    (∀ a b : CStr, fchar_compare a b = 0 → fchar_compare b a = 0) ∧
    (∀ a b c : CStr, fchar_compare a b = 0 → fchar_compare b c = 0 → fchar_compare a c = 0) ∧
    (∀ a b : CStr, fchar_compare a b = 0 ↔
      alf_index (first_char a) = alf_index (first_char b)) ∧
    (∀ a : CStr, alf_index (first_char a) = -1 ∨
      ∃ k : Nat, k ≤ 25 ∧ alf_index (first_char a) = (k : Int)) ∧
    (∀ k : Nat, k ≤ 25 → ∃ a : CStr, alf_index (first_char a) = (k : Int)) ∧
    (∃ a : CStr, alf_index (first_char a) = -1) := by
  have hzero : ∀ a b : CStr, fchar_compare a b = 0 ↔ sort_key a = sort_key b := by
    intro a b
    rw [fchar_compare_eq]
    have ha := sort_key_range a
    have hb := sort_key_range b
    split_ifs <;> constructor <;> intro hh <;> first | omega | exact hh.elim
  refine ⟨?_, fchar_compare_consistent.1, fchar_compare_consistent.2, ?_, ?_, hzero, ?_, ?_, ?_⟩
  · intro a
    exact (hzero a a).mpr rfl
  · intro a b h
    exact (hzero b a).mpr ((hzero a b).mp h).symm
  · intro a b c h1 h2
    exact (hzero a c).mpr (((hzero a b).mp h1).trans ((hzero b c).mp h2))
  · intro a
    rcases sort_key_range a with h | h
    · exact Or.inl h
    · refine Or.inr ⟨(sort_key a).toNat, ?_, ?_⟩
      · have := Int.toNat_of_nonneg h.1
        omega
      · exact (Int.toNat_of_nonneg h.1).symm
  · intro k hk
    refine ⟨[97 + k], ?_⟩
    simp only [first_char, List.headD_cons]
    rw [alf_index_closed, if_pos (by omega)]
    push_cast
    omega
  · exact ⟨[], by decide⟩

/-- C16: the sequence of sort keys of the output depends only on the multiset of the keys
of the input.  Two argument lists with the same multiset of keys, in particular two lists
that are permutations of each other, give outputs with the same key sequence, whatever
sorts meeting the contract of `qsort` are used: the valid keys in non-decreasing order,
followed by one `-1` for each argument with an invalid key. -/
theorem output_keys_from_key_multiset (qsort qsort2 : Qsort) (hq : QsortContract qsort)
    (hq2 : QsortContract qsort2) (alloc alloc2 : Alloc) (prog prog2 : CStr)
    (args args2 : List CStr) (hne : args ≠ [])
    (halloc : alloc.succeeds args.length) (halloc2 : alloc2.succeeds args2.length)
    (hkeys : (args.map (fun s => alf_index (first_char s))).Perm
      (args2.map (fun s => alf_index (first_char s)))) :
    ∃ (out out2 : List CStr) (v : List Int),
      sorted_args qsort alloc (prog :: args) = some out ∧
      sorted_args qsort2 alloc2 (prog2 :: args2) = some out2 ∧
      out.map (fun s => alf_index (first_char s)) = out2.map (fun s => alf_index (first_char s)) ∧
      out.map (fun s => alf_index (first_char s)) =
        v ++ List.replicate
          (args.filter (fun s => decide (alf_index (first_char s) = -1))).length (-1) ∧
      v.Pairwise (fun x y => x ≤ y) ∧ (∀ k ∈ v, 0 ≤ k ∧ k ≤ 25) ∧
      v.Perm ((args.map (fun s => alf_index (first_char s))).filter (fun k => decide (k ≠ -1))) := by
  have hne2 : args2 ≠ [] := by
    intro h
    rw [h] at hkeys
    have hl := hkeys.length_eq
    simp only [List.length_map, List.length_nil] at hl
    exact hne (List.eq_nil_of_length_eq_zero hl)
  obtain ⟨out, h1, hp, hs, _⟩ := run_ok qsort hq alloc prog args hne halloc
  obtain ⟨out2, g1, gp, gs, _⟩ := run_ok qsort2 hq2 alloc2 prog2 args2 hne2 halloc2
  have hk : (out.map sort_key).Perm (out2.map sort_key) :=
    ((hp.map sort_key).trans hkeys).trans (gp.map sort_key).symm
  obtain ⟨s1, s2, s3⟩ := sorted_keys_shape out hs
  refine ⟨out, out2, (out.filter (fun s => decide (sort_key s ≠ -1))).map sort_key, h1, g1,
    sorted_keys_eq out out2 hk hs gs, ?_, s2, s3, ?_⟩
  · have hlen : (out.filter (fun s => decide (sort_key s = -1))).length
        = (args.filter (fun s => decide (sort_key s = -1))).length := (hp.filter _).length_eq
    show out.map sort_key = _ ++
      List.replicate (args.filter (fun s => decide (sort_key s = -1))).length (-1)
    rw [← hlen]
    exact s1
  · have hf : (out.filter (fun s => decide (sort_key s ≠ -1))).map sort_key
        = (out.map sort_key).filter (fun k => decide (k ≠ -1)) := by
      rw [List.filter_map]
      rfl
    show List.Perm _ ((args.map sort_key).filter (fun k => decide (k ≠ -1)))
    rw [hf]
    exact (hp.map sort_key).filter _

theorem output_keys_from_key_multiset_witness :
    ∃ (out out2 : List CStr) (v : List Int),
      sorted_args isort Alloc.all_ok [bytes "alfz", bytes "cat", bytes "3x", bytes "ant"]
        = some out ∧
      sorted_args isort Alloc.all_ok [bytes "sort", bytes "Apple", bytes "Cow", bytes ""]
        = some out2 ∧
      out.map (fun s => alf_index (first_char s)) = out2.map (fun s => alf_index (first_char s)) ∧
      out.map (fun s => alf_index (first_char s)) =
        v ++ List.replicate
          ([bytes "cat", bytes "3x", bytes "ant"].filter
            (fun s => decide (alf_index (first_char s) = -1))).length (-1) ∧
      v.Pairwise (fun x y => x ≤ y) ∧ (∀ k ∈ v, 0 ≤ k ∧ k ≤ 25) ∧
      v.Perm (([bytes "cat", bytes "3x", bytes "ant"].map
        (fun s => alf_index (first_char s))).filter (fun k => decide (k ≠ -1))) :=
  output_keys_from_key_multiset isort isort isort_contract isort_contract Alloc.all_ok
    Alloc.all_ok (bytes "alfz") (bytes "sort") [bytes "cat", bytes "3x", bytes "ant"]
    [bytes "Apple", bytes "Cow", bytes ""] (by decide) (Alloc.all_ok_succeeds _)
    (Alloc.all_ok_succeeds _) (by decide)

/-- C17, as stated, fails: the value `fchar_compare` returns is not the difference of the
keys for every pair of strings.  For `3x` (key `-1`) and `cat` (key `2`) the guard on an
invalid first key returns `1`, while the difference of the keys is `-3`. -/
theorem fchar_compare_not_always_difference :
    fchar_compare (bytes "3x") (bytes "cat") = 1 ∧
    alf_index (first_char (bytes "3x")) - alf_index (first_char (bytes "cat")) = -3 ∧
    ¬ ∀ a b : CStr,
      (-25 ≤ fchar_compare a b ∧ fchar_compare a b ≤ 25) ∧
      fchar_compare a b = alf_index (first_char a) - alf_index (first_char b) := by
  refine ⟨by decide, by decide, ?_⟩
  intro h
  exact absurd (h (bytes "3x") (bytes "cat")).2 (by decide)

/-- C17, amended: the subtraction `i1 - i2` of `fchar_compare` never overflows.  It is
reached only when both keys are valid, hence in `0..25`, and there the machine subtraction
is defined and the value returned is the exact integer difference of the keys; when a key
is invalid the value returned is `0`, `1` or `-1`.  For all strings the value returned lies
in `-25..25`. -/
theorem fchar_compare_no_overflow (a b : CStr) :
    fchar_compare_checked a b = some (fchar_compare a b) ∧
    (-25 ≤ fchar_compare a b ∧ fchar_compare a b ≤ 25) ∧
    (alf_index (first_char a) ≠ -1 ∧ alf_index (first_char b) ≠ -1 →
      (0 ≤ alf_index (first_char a) ∧ alf_index (first_char a) ≤ 25) ∧
      (0 ≤ alf_index (first_char b) ∧ alf_index (first_char b) ≤ 25) ∧
      int_sub (alf_index (first_char a)) (alf_index (first_char b))
        = some (alf_index (first_char a) - alf_index (first_char b)) ∧
      fchar_compare a b = alf_index (first_char a) - alf_index (first_char b)) ∧
    (alf_index (first_char a) = -1 ∨ alf_index (first_char b) = -1 →
      fchar_compare a b = 0 ∨ fchar_compare a b = 1 ∨ fchar_compare a b = -1) := by
  have he := fchar_compare_eq a b
  simp only [sort_key] at he
  have ha := alf_index_range (first_char a)
  have hb := alf_index_range (first_char b)
  have hsub : alf_index (first_char a) ≠ -1 → alf_index (first_char b) ≠ -1 →
      int_sub (alf_index (first_char a)) (alf_index (first_char b))
        = some (alf_index (first_char a) - alf_index (first_char b)) := by
    intro h1 h2
    unfold int_sub INT_MIN INT_MAX
    rw [if_pos (by omega)]
  refine ⟨?_, ?_, ?_, ?_⟩
  · unfold fchar_compare_checked
    simp only []
    rw [he]
    split_ifs with h1 h2 h3
    · rfl
    · rfl
    · rfl
    · exact hsub h2 h3
  · rw [he]
    split_ifs <;> omega
  · rintro ⟨h1, h2⟩
    refine ⟨by omega, by omega, hsub h1 h2, ?_⟩
    rw [he, if_neg (by tauto), if_neg h1, if_neg h2]
  · intro h
    rw [he]
    split_ifs <;> omega

theorem fchar_compare_no_overflow_witness :
    fchar_compare_checked (bytes "zoo") (bytes "ant") = some 25 ∧
    fchar_compare_checked (bytes "ant") (bytes "Zoo") = some (-25) ∧
    fchar_compare (bytes "cat") (bytes "Bee")
      = alf_index (first_char (bytes "cat")) - alf_index (first_char (bytes "Bee")) :=
  ⟨(fchar_compare_no_overflow (bytes "zoo") (bytes "ant")).1.trans (by decide),
    (fchar_compare_no_overflow (bytes "ant") (bytes "Zoo")).1.trans (by decide),
    ((fchar_compare_no_overflow (bytes "cat") (bytes "Bee")).2.2.1 ⟨by decide, by decide⟩).2.2.2⟩

/-- C18: sharing the global iterator `i` between `alf_index` and the loops of `main` does
not disturb the driver.  A call of `alf_index` overwrites `i`, whatever it held, and leaves
it equal to the index returned, or to `26` when `-1` is returned; so does `fchar_compare`,
through its second call.  It is called only by the sort step, and each loop of `main`
starts by assigning `i = 0`: whatever value the sort step leaves in `i`, the run is the
same, the duplication loop fills positions `0..num_args-1` once each in increasing order,
and the print loop writes positions `0..num_args-1` once each in increasing order. -/
theorem shared_iterator_harmless (qsort : Qsort) (hq : QsortContract qsort) (alloc : Alloc)
    (prog : CStr) (args : List CStr) (hne : args ≠ []) (halloc : alloc.succeeds args.length) :
    (∀ c g : Nat, alf_index_st c g = alf_index_st c 0 ∧
      (alf_index_st c g).2 =
        if (alf_index_st c g).1 = -1 then 26 else ((alf_index_st c g).1).toNat) ∧
    (∀ (a b : CStr) (g : Nat),
      (fchar_compare_st a b g).2 = (alf_index_st (first_char b) g).2) ∧
    dup_loop alloc (prog :: args) args.length 0 []
      = (some ((List.range args.length).map (fun k => (prog :: args).getD (k + 1) [])),
          args.length) ∧
    (∀ j : Nat, main (fun base compar i => ((qsort base compar i).1, j)) alloc (prog :: args)
      = main qsort alloc (prog :: args)) ∧
    ∃ out, sorted_args qsort alloc (prog :: args) = some out ∧
      out.length = args.length ∧
      (main qsort alloc (prog :: args)).stdout =
        ((List.range args.length).map (fun k => printf_line k (out.getD k []))).flatten ∧
      (main qsort alloc (prog :: args)).i = args.length := by
  refine ⟨?_, ?_, ?_, ?_, ?_⟩
  · intro c g
    refine ⟨rfl, ?_⟩
    rw [alf_index_st_closed]
    by_cases h1 : 97 ≤ c ∧ c ≤ 122
    · simp only [if_pos h1]
      rw [if_neg (by omega)]
      omega
    · by_cases h2 : 65 ≤ c ∧ c ≤ 90
      · simp only [if_neg h1, if_pos h2]
        rw [if_neg (by omega)]
        omega
      · simp only [if_neg h1, if_neg h2, if_true]
  · intro a b g
    simp only [fchar_compare_st]
    split_ifs <;> rfl
  · have hd := dup_loop_ok alloc prog args args.length 0 [] (by omega)
      (fun k hk => halloc.2 k (by omega))
    rw [hd]
    simp only [List.drop_zero, List.take_length, List.nil_append, Nat.zero_add]
    congr 2
    apply List.ext_getElem
    · simp
    · intro n h1 h2
      simp [List.getD_eq_getElem?_getD, List.getElem?_eq_getElem h1]
  · intro j
    rfl
  · obtain ⟨out, h1, hp, _, hm⟩ := run_ok qsort hq alloc prog args hne halloc
    exact ⟨out, h1, hp.length_eq, by rw [hm, hp.length_eq], by rw [hm]⟩

theorem shared_iterator_harmless_witness :
    (isort [bytes "cat", bytes "3x"] fchar_compare_st 2).2 = 26 ∧
    (main isort Alloc.all_ok [bytes "alfz", bytes "cat", bytes "3x"]).stdout
      = bytes "[0][c]: cat \n[1][3]: 3x \n" ∧
    ∃ out, sorted_args isort Alloc.all_ok [bytes "alfz", bytes "cat", bytes "3x"] = some out ∧
      out.length = [bytes "cat", bytes "3x"].length ∧
      (main isort Alloc.all_ok [bytes "alfz", bytes "cat", bytes "3x"]).stdout =
        ((List.range [bytes "cat", bytes "3x"].length).map
          (fun k => printf_line k (out.getD k []))).flatten ∧
      (main isort Alloc.all_ok [bytes "alfz", bytes "cat", bytes "3x"]).i
        = [bytes "cat", bytes "3x"].length :=
  ⟨by decide, by decide,
    (shared_iterator_harmless isort isort_contract Alloc.all_ok (bytes "alfz")
      [bytes "cat", bytes "3x"] (by decide) (Alloc.all_ok_succeeds _)).2.2.2.2⟩

end Alfz
